import Mathlib

/-!
# Verification of the chunked parallel delta-rule forward engine

Shallow embedding of `fla/ops/delta_rule/parallel.py` over exact rational
arithmetic.  All tensors are modelled per `(batch, head)` slice, as functions
from (time, feature) indices to `ℚ`; the Triton grid dimension `i_bh` ranges
over independent slices with disjoint input and output regions, so every
statement about one slice is a statement about the whole batched tensor.
Floating-point `.to(...)` dtype casts in the source are identities in this
exact-arithmetic model.
-/

namespace Fla

open Matrix

/-- One `(batch, head)` slice of a forward invocation: sequence length `T`,
key width `K`, value width `V`, and the query/key/value/gate tensors.
Out-of-range index values of the functions are irrelevant: every kernel access
goes through the boundary-checked loads `ld`/`ld2` below. -/
structure Inp where
  T : ℕ
  K : ℕ
  V : ℕ
  q : ℕ → ℕ → ℚ
  k : ℕ → ℕ → ℚ
  v : ℕ → ℕ → ℚ
  beta : ℕ → ℚ

/-- 1-D boundary-checked load (`tl.load` with `boundary_check`): indices past
the bound read as zero. -/
def ld (n : ℕ) (x : ℕ → ℚ) (i : ℕ) : ℚ :=
  if i < n then x i else 0

/-- 2-D boundary-checked load: out-of-range rows or columns read as zero. -/
def ld2 (n m : ℕ) (x : ℕ → ℕ → ℚ) (i j : ℕ) : ℚ :=
  if i < n ∧ j < m then x i j else 0

/-- `triton.next_power_of_2`: the least power of two that is `≥ n` (for
`n ≥ 1`).  Kernels pad feature blocks to this width with zeros. -/
def nextPow2 (n : ℕ) : ℕ :=
  2 ^ Nat.clog 2 n

/-- Dot product over the first `n` feature lanes. -/
def dotR (n : ℕ) (a b : ℕ → ℚ) : ℚ :=
  ∑ f ∈ Finset.range n, a f * b f

/-- Forward substitution for the chunk correction matrix.  `Tsub L` is the
inverse of `I + L` for a strictly lower-triangular `L`, produced row by row:
row `i` is `e_i - ∑_{m<i} L i m • (row m)`.

This is exactly the matrix built by the in-place loop of
`naive_delta_rule_parallel` (lines 360-363 of the source): there
`T` is initialised to `-L` (the strictly lower triangle of
`k_beta @ k^T`, negated), and the update
`T[i,:i] += (T[i,:,None] * T[:,:i]).sum(-2)` rewrites row `i` to
`-L[i,:] + ∑_m T[i,m] * T_final[m,:]`, where only `m < i` contribute
(entries `T[i,m]` with `m ≥ i` are zero) and rows `m < i` are already final.
After the trailing `T += I` the rows satisfy precisely the recurrence below:
the `m = j` term `-L[i,j] * 1` is the retained initial value, and the
diagonal `+I` supplies the `e_i`. -/
def Tsub (L : ℕ → ℕ → ℚ) : ℕ → ℕ → ℚ
  | i, j =>
    (if i = j then (1 : ℚ) else 0) -
      ∑ m ∈ (Finset.range i).attach, L i m.1 * Tsub L m.1 j
termination_by i _ => i
decreasing_by exact Finset.mem_range.mp m.2

/-! ## ChunkCorrectionSolver (`fwd_prepare_T`, external collaborator) -/

/-- Modelled from the spec: the strictly-lower-triangular gated key
self-similarity consumed by the ChunkCorrectionSolver for chunk `c` of size
`BS` — entry `(i, m)` is `beta_i * (k_i ⬝ k_m)` below the diagonal and zero
elsewhere, with boundary-checked reads for a ragged final chunk. -/
def prepL (p : Inp) (BS c : ℕ) (i m : ℕ) : ℚ :=
  if m < i then
    ld p.T p.beta (c * BS + i) *
      dotR p.K (fun f => ld2 p.T p.K p.k (c * BS + i) f)
        (fun f => ld2 p.T p.K p.k (c * BS + m) f)
  else 0

/-- Modelled from the spec: `fwd_prepare_T(k, beta, BS)` (the
ChunkCorrectionSolver from `fla.ops.delta_rule.wy_fast`, whose internal
algorithm is out of scope).  It returns, per chunk, the `BS × BS` correction
matrix inverting the strictly-lower-triangular system built from the gated key
self-similarity — the same matrix the ReferenceOracle builds by explicit
triangular forward substitution.  Stored as a `(T, BS)`-shaped array: row `t`
holds row `t % BS` of the matrix for chunk `t / BS`. -/
def prepT (p : Inp) (BS : ℕ) (t j : ℕ) : ℚ :=
  Tsub (prepL p BS (t / BS)) (t % BS) j

/-! ## IntraChunkTransformer (`chunk_transform_qk_fwd_kernel`)

Chunk size `BC` (the kernel calls it `BT`; the forward pass passes `BS = 32`).
`A` is the `(T, BC)`-shaped correction-matrix array.  Each definition gives
one tensor produced by the kernel, at global time index `t` (local row
`t % BC` of chunk `t / BC`). -/

/-- `b_q`: the scaled query row, zero outside the `(T, K)` bounds. -/
def ctQ (p : Inp) (scale : ℚ) (t f : ℕ) : ℚ :=
  ld2 p.T p.K p.q t f * scale

/-- `b_qk`: causal intra-chunk scores, `(Q·scale)·Kᵀ` kept where
local row `≥` column (`m_t = o_i[:,None] >= o_i[None,:]`).  Dot products run
over the zero-padded `BK = next_power_of_2(K)` feature lanes. -/
def ctSqk (p : Inp) (scale : ℚ) (BC : ℕ) (t m : ℕ) : ℚ :=
  if m ≤ t % BC then
    dotR (nextPow2 p.K) (fun f => ctQ p scale t f)
      (fun f => ld2 p.T p.K p.k ((t / BC) * BC + m) f)
  else 0

/-- `b_kk`: strictly causal key self-scores, `K·Kᵀ` kept where local row `>`
column. -/
def ctSkk (p : Inp) (BC : ℕ) (t m : ℕ) : ℚ :=
  if m < t % BC then
    dotR (nextPow2 p.K) (fun f => ld2 p.T p.K p.k t f)
      (fun f => ld2 p.T p.K p.k ((t / BC) * BC + m) f)
  else 0

/-- `b_qkT = b_qk @ b_T`: corrected intra-chunk scores (also the `A_local`
block stored when attentions are requested). -/
def ctSqkT (p : Inp) (scale : ℚ) (BC : ℕ) (A : ℕ → ℕ → ℚ) (t j : ℕ) : ℚ :=
  ∑ m ∈ Finset.range BC, ctSqk p scale BC t m * ld2 p.T BC A ((t / BC) * BC + m) j

/-- `b_kkT = b_kk @ b_T`: corrected key self-scores. -/
def ctSkkT (p : Inp) (BC : ℕ) (A : ℕ → ℕ → ℚ) (t j : ℕ) : ℚ :=
  ∑ m ∈ Finset.range BC, ctSkk p BC t m * ld2 p.T BC A ((t / BC) * BC + m) j

/-- `o = b_qkT @ b_v`: the chunk-local output contribution. -/
def ctO (p : Inp) (scale : ℚ) (BC : ℕ) (A : ℕ → ℕ → ℚ) (t fv : ℕ) : ℚ :=
  ∑ j ∈ Finset.range BC, ctSqkT p scale BC A t j * ld2 p.T p.V p.v ((t / BC) * BC + j) fv

/-- `q_new = b_q - b_qkT @ b_k_beta`: the chunk-corrected query
(`b_k_beta = b_k * b_beta[:, None]` uses the original key and the gate). -/
def ctQnew (p : Inp) (scale : ℚ) (BC : ℕ) (A : ℕ → ℕ → ℚ) (t f : ℕ) : ℚ :=
  ctQ p scale t f -
    ∑ j ∈ Finset.range BC,
      ctSqkT p scale BC A t j *
        (ld2 p.T p.K p.k ((t / BC) * BC + j) f * ld p.T p.beta ((t / BC) * BC + j))

/-- `k_new = b_k - trans(b_kkT) @ b_k_beta`: the chunk-corrected key. -/
def ctKnew (p : Inp) (BC : ℕ) (A : ℕ → ℕ → ℚ) (t f : ℕ) : ℚ :=
  ld2 p.T p.K p.k t f -
    ∑ j ∈ Finset.range BC,
      ctSkkT p BC A ((t / BC) * BC + j) (t % BC) *
        (ld2 p.T p.K p.k ((t / BC) * BC + j) f * ld p.T p.beta ((t / BC) * BC + j))

/-! ## InterChunkScanner (`parallel_delta_rule_fwd_kernel`)

One program instance per query block of size `BT`; within it each row `t`
evolves independently, so the state is modelled per global query row `t`:
the running query register `qr` (`b_q`, seeded from `q_new`), the output
accumulator `oa` (`b_o`, seeded from the intra-chunk output), and the row of
the materialized attention matrix `ar` (initially the `new_zeros` buffer). -/

structure SState where
  qr : ℕ → ℚ
  oa : ℕ → ℚ
  ar : ℕ → ℚ

/-- `b_s[r, jj]` before masking: the running query dotted with the corrected
key at time `offset + jj` (`p_k` reads `k` through a transposed `(K, T)` block
pointer with zero boundary padding). -/
def pdScore (p : Inp) (kn : ℕ → ℕ → ℚ) (qr : ℕ → ℚ) (offset jj : ℕ) : ℚ :=
  dotR (nextPow2 p.K) qr (fun f => ld2 p.T p.K kn (offset + jj) f)

/-- One iteration of the scan over a key block at `offset`.  With `useMask`
set (the overlap loop) the whole score row is zeroed unless
`offset + BS ≤ t`, the row-wise form of
`m_s = arange(0, BT) >= (offset - i_t*BT + BS)`.  The score row `sc` is
computed from the incoming state; then `b_o += sc @ v`,
`b_q -= sc @ (k2 * beta)` — `k2` is the original, uncorrected key — and, when
attentions are requested, `sc` is stored at columns `[offset, offset+BS)` of
attention row `t` (both indices bounded by `T`). -/
def pdStep (p : Inp) (kn : ℕ → ℕ → ℚ) (BS : ℕ) (useMask : Bool) (t : ℕ)
    (s : SState) (offset : ℕ) : SState :=
  let sc : ℕ → ℚ := fun jj =>
    if useMask ∧ offset + BS > t then 0 else pdScore p kn s.qr offset jj
  { qr := fun f => s.qr f -
      ∑ jj ∈ Finset.range BS,
        sc jj * (ld2 p.T p.K p.k (offset + jj) f * ld p.T p.beta (offset + jj)),
    oa := fun fv => s.oa fv + ∑ jj ∈ Finset.range BS, sc jj * ld2 p.T p.V p.v (offset + jj) fv,
    ar := fun sIdx =>
      if offset ≤ sIdx ∧ sIdx < offset + BS ∧ t < p.T ∧ sIdx < p.T then sc (sIdx - offset)
      else s.ar sIdx }

/-- Offsets of the first (overlap, masked) loop,
`range((i_t+1)*BT - 2*BS, i_t*BT - BS, -BS)`: `BT/BS - 1` values descending
from `iT*BT + BT - 2*BS` to `iT*BT`.  All values are non-negative, so the
truncated `ℕ` subtraction agrees with the Python signed arithmetic. -/
def pdOffsL (BT BS iT : ℕ) : List ℕ :=
  (List.range (BT / BS - 1)).map (fun n => iT * BT + (BT - 2 * BS) - n * BS)

/-- Offsets of the second (disjoint, unmasked) loop,
`range(i_t*BT - BS, -BS, -BS)`: `i_t*BT/BS` values descending from
`iT*BT - BS` to `0`. -/
def pdOffsR (BT BS iT : ℕ) : List ℕ :=
  (List.range (iT * BT / BS)).map (fun n => iT * BT - BS - n * BS)

/-- Initial scan state for query row `t`: `b_q` loads `q_new`, `b_o` loads the
intra-chunk output, and the attention buffer is `new_zeros`. -/
def pdInit (p : Inp) (qn oIn : ℕ → ℕ → ℚ) (t : ℕ) : SState :=
  { qr := fun f => ld2 p.T p.K qn t f,
    oa := fun fv => ld2 p.T p.V oIn t fv,
    ar := fun _ => 0 }

/-- The full right-to-left scan for query row `t`: the masked overlap loop
followed by the unmasked disjoint loop. -/
def pdScan (p : Inp) (qn kn oIn : ℕ → ℕ → ℚ) (BT BS : ℕ) (t : ℕ) : SState :=
  (pdOffsR BT BS (t / BT)).foldl (pdStep p kn BS false t)
    ((pdOffsL BT BS (t / BT)).foldl (pdStep p kn BS true t) (pdInit p qn oIn t))

/-- `o_new`: the final output row stored by the scan kernel. -/
def pdOnew (p : Inp) (qn kn oIn : ℕ → ℕ → ℚ) (BT BS : ℕ) (t fv : ℕ) : ℚ :=
  (pdScan p qn kn oIn BT BS t).oa fv

/-! ## `ParallelDeltaRuleFunction.forward` and the public entry point -/

/-- The composed engine output with chunk-correction/intra size `BC`, query
block `BT` and key block `BS`: solver, intra-chunk transform, then scan. -/
def engineO (BC BT BS : ℕ) (p : Inp) (scale : ℚ) (t fv : ℕ) : ℚ :=
  pdOnew p (ctQnew p scale BC (prepT p BC)) (ctKnew p BC (prepT p BC))
    (ctO p scale BC (prepT p BC)) BT BS t fv

/-- The output of `ParallelDeltaRuleFunction.forward`: the engine at the
hard-coded block sizes `BT, BS = 128, 32` (the solver and the intra-chunk
transform both receive chunk size `BS = 32`). -/
def fwdO (p : Inp) (scale : ℚ) : ℕ → ℕ → ℚ :=
  engineO 32 128 32 p scale

/-- The materialized attention matrix: the scan kernel stores every score
block it visits into the zero-initialised `(T, T)` buffer, then
`save_intra_chunk_attn` overwrites each diagonal `32 × 32` block (bounded by
`T` in both coordinates) with the corresponding `A_local` block, i.e. the
corrected intra-chunk scores `b_qkT`. -/
def fwdAttn (p : Inp) (scale : ℚ) (t s : ℕ) : ℚ :=
  if t / 32 = s / 32 ∧ t < p.T ∧ s < p.T then
    ld2 p.T 32 (ctSqkT p scale 32 (prepT p 32)) t (s % 32)
  else
    (pdScan p (ctQnew p scale 32 (prepT p 32)) (ctKnew p 32 (prepT p 32))
      (ctO p scale 32 (prepT p 32)) 128 32 t).ar s

/-- The error outcomes surfaced by this operator. -/
inductive FlaErr where
  | validation
  | deprecation
  | notImplemented
  | invalidScale
deriving DecidableEq

/-- What a successful forward call returns: the output tensor and, when
requested, the attention matrix. -/
structure FwdOut where
  o : ℕ → ℕ → ℚ
  attn : Option (ℕ → ℕ → ℚ)

/-- `ParallelDeltaRuleFunction.forward`.  The `assert q.shape[-1] <= 128`
precondition check runs first, before `fwd_prepare_T` and before any kernel
launch or output allocation (for a valid input the last dimension of `q` is
the shared key width `K`).  A `None` scale is passed through unchanged and
fails when the first kernel evaluates `tl.load(p_q) * scale`; the pure model
records that failure as `invalidScale`. -/
def ParallelDeltaRuleFunction.forward (p : Inp) (scale : Option ℚ)
    (output_attentions : Bool) : Except FlaErr FwdOut :=
  if 128 < p.K then Except.error FlaErr.validation
  else
    match scale with
    | none => Except.error FlaErr.invalidScale
    | some s =>
        Except.ok { o := fwdO p s,
                    attn := if output_attentions then some (fwdAttn p s) else none }

/-- `ParallelDeltaRuleFunction.backward`: unconditionally raises
`NotImplementedError`. -/
def ParallelDeltaRuleFunction.backward (dout : ℕ → ℕ → ℚ)
    (dAttn : Option (ℕ → ℕ → ℚ)) : Except FlaErr Unit :=
  Except.error FlaErr.notImplemented

/-- `parallel_delta_rule`: raises `DeprecationWarning` whenever `head_first`
is set, otherwise applies the forward function.  The docstring promises that
an omitted `scale` defaults to `1/sqrt(K)`, but no branch substitutes that
default — `None` flows straight into `forward`.  (The seq-len/head-count
shape heuristic only emits a non-fatal warning and is not modelled.) -/
def parallel_delta_rule (p : Inp) (scale : Option ℚ := none)
    (output_attentions : Bool := false) (head_first : Bool := false) :
    Except FlaErr FwdOut :=
  if head_first then Except.error FlaErr.deprecation
  else ParallelDeltaRuleFunction.forward p scale output_attentions

/-! ## ReferenceOracle (`naive_delta_rule_parallel`)

The unvectorized reference computation, lines 352-403 of the source, with
default block sizes `BM = 128`, `BN = 32`.  It slices tensors directly
(`rearrange` to chunks of `BN`, Python slices of width `BM`/`BN`), which is
shape-correct exactly when the sequence length is a multiple of `BM`; the
claims instantiate it on such lengths, where every index below stays in
range and no padding semantics are involved. -/

/-- `d_k ** -0.5` of the oracle.  The source computes a real square root;
over `ℚ` we use `1 / Nat.sqrt d_k`, which is exact whenever `d_k` is a
perfect square — every theorem below instantiates `d_k = 1`, where both equal
`1`. -/
def ratRsqrt (n : ℕ) : ℚ :=
  1 / (Nat.sqrt n : ℚ)

/-- `q = q * (d_k ** -0.5)`: the pre-scaled query. -/
def nvQ (p : Inp) (t f : ℕ) : ℚ :=
  p.q t f * ratRsqrt p.K

/-- `v = v * beta[..., None]`: the oracle gates the values. -/
def nvV (p : Inp) (t f : ℕ) : ℚ :=
  p.v t f * p.beta t

/-- `k_beta = k * beta[..., None]`: the gated original key. -/
def nvKb (p : Inp) (t f : ℕ) : ℚ :=
  p.k t f * p.beta t

/-- The strictly lower triangle of `k_beta @ k^T` for chunk `c`
(`masked_fill` with `triu(..., diagonal=0)` keeps row `>` column). -/
def nvL (p : Inp) (BN c : ℕ) (i m : ℕ) : ℚ :=
  if m < i then
    dotR p.K (fun f => nvKb p (c * BN + i) f) (fun f => p.k (c * BN + m) f)
  else 0

/-- The correction matrix the oracle builds in place for chunk `c`
(initialise to the negated strict lower triangle, forward-substitute row by
row, add `I`): see the derivation on `Tsub`. -/
def nvT (p : Inp) (BN c : ℕ) (i j : ℕ) : ℚ :=
  Tsub (nvL p BN c) i j

/-- `(q @ k^T).masked_fill(triu(diagonal=1), 0)`: causal intra-chunk scores
(row `≥` column kept), at global row `t`. -/
def nvSqk (p : Inp) (BN : ℕ) (t m : ℕ) : ℚ :=
  if m ≤ t % BN then
    dotR p.K (fun f => nvQ p t f) (fun f => p.k ((t / BN) * BN + m) f)
  else 0

/-- `A_local = masked(q @ k^T) @ T`. -/
def nvAloc (p : Inp) (BN : ℕ) (t j : ℕ) : ℚ :=
  ∑ m ∈ Finset.range BN, nvSqk p BN t m * nvT p BN (t / BN) m j

/-- `o_intra = A_local @ v` (with the gated values). -/
def nvOintra (p : Inp) (BN : ℕ) (t fv : ℕ) : ℚ :=
  ∑ j ∈ Finset.range BN, nvAloc p BN t j * nvV p ((t / BN) * BN + j) fv

/-- `(k @ k^T).masked_fill(triu(diagonal=0), 0)`: strictly causal key
self-scores. -/
def nvSkk (p : Inp) (BN : ℕ) (t m : ℕ) : ℚ :=
  if m < t % BN then
    dotR p.K (fun f => p.k t f) (fun f => p.k ((t / BN) * BN + m) f)
  else 0

/-- `masked(k @ k^T) @ T`. -/
def nvSkkT (p : Inp) (BN : ℕ) (t j : ℕ) : ℚ :=
  ∑ m ∈ Finset.range BN, nvSkk p BN t m * nvT p BN (t / BN) m j

/-- `k = k - (masked(k@k^T) @ T).transpose(-1,-2) @ k_beta`: the
chunk-corrected key. -/
def nvKc (p : Inp) (BN : ℕ) (t f : ℕ) : ℚ :=
  p.k t f -
    ∑ j ∈ Finset.range BN, nvSkkT p BN ((t / BN) * BN + j) (t % BN) * nvKb p ((t / BN) * BN + j) f

/-- `q = q - A_local @ k_beta`: the chunk-corrected query. -/
def nvQc (p : Inp) (BN : ℕ) (t f : ℕ) : ℚ :=
  nvQ p t f -
    ∑ j ∈ Finset.range BN, nvAloc p BN t j * nvKb p ((t / BN) * BN + j) f

/-- The oracle scan state for one query row: the running query slice of `q_i`
and the output accumulator slice of `o_i`. -/
structure NState where
  qr : ℕ → ℚ
  oa : ℕ → ℚ

/-- One iteration of the oracle block loops at key block `offset`
(`A_ij = q_i @ k_j^T` on the corrected key; in the intra loop it is masked by
`arange(i, i+BM) >= offset + BN`, i.e. kept when `offset + BN ≤ t`; then
`q_i -= A_ij @ k_beta` and `o_i += A_ij @ v`). -/
def nvStep (p : Inp) (BN : ℕ) (useMask : Bool) (t : ℕ) (s : NState) (offset : ℕ) : NState :=
  let sc : ℕ → ℚ := fun jj =>
    if useMask ∧ offset + BN > t then 0
    else dotR p.K s.qr (fun f => nvKc p BN (offset + jj) f)
  { qr := fun f => s.qr f - ∑ jj ∈ Finset.range BN, sc jj * nvKb p (offset + jj) f,
    oa := fun fv => s.oa fv + ∑ jj ∈ Finset.range BN, sc jj * nvV p (offset + jj) fv }

/-- Offsets of the oracle intra-block loop
`range(i + BM - 2*BN, i - BN, -BN)` for query block start `i`. -/
def nvOffsL (BM BN i : ℕ) : List ℕ :=
  (List.range (BM / BN - 1)).map (fun n => i + (BM - 2 * BN) - n * BN)

/-- Offsets of the oracle inter-block loop `range(i - BN, -BN, -BN)`. -/
def nvOffsR (BM BN i : ℕ) : List ℕ :=
  (List.range (i / BN)).map (fun n => i - BN - n * BN)

/-- The oracle output `o` at row `t`: seed `(q_i, o_i)` with the corrected
query and the intra-chunk output, fold the masked intra loop then the
unmasked inter loop over earlier key blocks, and read the accumulator.
(The oracle also materializes a score matrix `A`; no claim refers to it, so
it is not modelled.) -/
def nvO (p : Inp) (BM BN : ℕ) (t fv : ℕ) : ℚ :=
  ((nvOffsR BM BN ((t / BM) * BM)).foldl (nvStep p BN false t)
    ((nvOffsL BM BN ((t / BM) * BM)).foldl (nvStep p BN true t)
      { qr := fun f => nvQc p BN t f, oa := fun fv' => nvOintra p BN t fv' })).oa fv

/-! ## Concrete inputs used to instantiate theorems -/

/-- A minimal valid slice (`T = K = V = 1`, all tensors zero). -/
def inpZ : Inp :=
  { T := 1, K := 1, V := 1, q := fun _ _ => 0, k := fun _ _ => 0,
    v := fun _ _ => 0, beta := fun _ => 0 }

/-- The indicator tensor that is `1` at time `0`, feature `0` and zero
elsewhere. -/
def e00 : ℕ → ℕ → ℚ :=
  fun t f => if t = 0 ∧ f = 0 then 1 else 0

/-- The divergence input for the engine/oracle comparison: `T = 128` (one
full query block, four key chunks), `K = V = 1`, queries/keys/values the
time-0 indicator, gate identically `2`.  Its key feature width is `1`, so
the scale `1/sqrt(K)` is exactly `1`. -/
def inpC1 : Inp :=
  { T := 128, K := 1, V := 1, q := e00, k := e00, v := e00, beta := fun _ => 2 }

/-- A tensor supported only at time `1` — strictly in the future of time `0`. -/
def futK : ℕ → ℕ → ℚ :=
  fun u _ => if u = 1 then 1 else 0

/-- A gate supported only at time `1`. -/
def futB : ℕ → ℚ :=
  fun u => if u = 1 then 3 else 0

/-- Baseline input for the causality check: `T = 2`, everything zero. -/
def inpC2a : Inp :=
  { T := 2, K := 1, V := 1, q := fun _ _ => 0, k := fun _ _ => 0,
    v := fun _ _ => 0, beta := fun _ => 0 }

/-- The same input with keys, values and gates perturbed at time `1 > 0`. -/
def inpC2b : Inp :=
  { T := 2, K := 1, V := 1, q := fun _ _ => 0, k := futK, v := futK, beta := futB }

/-! ## Spec-side statements of the IntraChunkTransformer contract (C3)

Named matrix formulations following the spec text, §4.1: they are compared
with the kernel embedding above, never used by it. -/

/-- The loaded query block of chunk `c` as a matrix. -/
def specQm (p : Inp) (BC c : ℕ) : Matrix (Fin BC) (Fin p.K) ℚ :=
  Matrix.of fun r f => ld2 p.T p.K p.q (c * BC + (r : ℕ)) f

/-- The loaded key block of chunk `c` as a matrix. -/
def specKm (p : Inp) (BC c : ℕ) : Matrix (Fin BC) (Fin p.K) ℚ :=
  Matrix.of fun r f => ld2 p.T p.K p.k (c * BC + (r : ℕ)) f

/-- The loaded value block of chunk `c` as a matrix. -/
def specVm (p : Inp) (BC c : ℕ) : Matrix (Fin BC) (Fin p.V) ℚ :=
  Matrix.of fun r fv => ld2 p.T p.V p.v (c * BC + (r : ℕ)) fv

/-- The correction matrix block of chunk `c` as a matrix. -/
def specTm (p : Inp) (BC : ℕ) (A : ℕ → ℕ → ℚ) (c : ℕ) : Matrix (Fin BC) (Fin BC) ℚ :=
  Matrix.of fun m j => ld2 p.T BC A (c * BC + (m : ℕ)) j

/-- `K ⊙ gate`: the key block with each row scaled by its gate. -/
def specKB (p : Inp) (BC c : ℕ) : Matrix (Fin BC) (Fin p.K) ℚ :=
  Matrix.of fun r f => specKm p BC c r f * ld p.T p.beta (c * BC + (r : ℕ))

/-- Spec §4.1: `S_qk = (Q·scale)·Kᵀ` masked to zero strictly above the
diagonal (row `≥` column kept). -/
def specSqk (p : Inp) (scale : ℚ) (BC c : ℕ) : Matrix (Fin BC) (Fin BC) ℚ :=
  Matrix.of fun r m =>
    if (m : ℕ) ≤ (r : ℕ) then (scale • specQm p BC c * (specKm p BC c)ᵀ) r m else 0

/-- Spec §4.1: `S_kk = K·Kᵀ` masked to zero on and above the diagonal
(row `>` column kept). -/
def specSkk (p : Inp) (BC c : ℕ) : Matrix (Fin BC) (Fin BC) ℚ :=
  Matrix.of fun r m =>
    if (m : ℕ) < (r : ℕ) then (specKm p BC c * (specKm p BC c)ᵀ) r m else 0

/-- Spec §4.1: the corrected scores `S_qk·T`. -/
def specSqkC (p : Inp) (scale : ℚ) (BC : ℕ) (A : ℕ → ℕ → ℚ) (c : ℕ) :
    Matrix (Fin BC) (Fin BC) ℚ :=
  specSqk p scale BC c * specTm p BC A c

/-- Spec §4.1: the corrected self-scores `S_kk·T`. -/
def specSkkC (p : Inp) (BC : ℕ) (A : ℕ → ℕ → ℚ) (c : ℕ) : Matrix (Fin BC) (Fin BC) ℚ :=
  specSkk p BC c * specTm p BC A c

/-- Spec §4.1: `O = S_qk′·V`. -/
def specO (p : Inp) (scale : ℚ) (BC : ℕ) (A : ℕ → ℕ → ℚ) (c : ℕ) :
    Matrix (Fin BC) (Fin p.V) ℚ :=
  specSqkC p scale BC A c * specVm p BC c

/-- Spec §4.1: `Q′ = Q·scale − S_qk′·(K⊙gate)`. -/
def specQc (p : Inp) (scale : ℚ) (BC : ℕ) (A : ℕ → ℕ → ℚ) (c : ℕ) :
    Matrix (Fin BC) (Fin p.K) ℚ :=
  scale • specQm p BC c - specSqkC p scale BC A c * specKB p BC c

/-- Spec §4.1: `K′ = K − (S_kk′)ᵀ·(K⊙gate)`. -/
def specKc (p : Inp) (BC : ℕ) (A : ℕ → ℕ → ℚ) (c : ℕ) : Matrix (Fin BC) (Fin p.K) ℚ :=
  specKm p BC c - (specSkkC p BC A c)ᵀ * specKB p BC c

/-! ## Spec-side statement of one InterChunkScanner step (C4) -/

/-- Spec §4.2: the score row for the key block at `offset`, as seen by query
row `t` with running query register `qr` — the dot product of the register
with the chunk-corrected key `kn`, zeroed by the fine-grained causal mask in
the overlap phase. -/
def scanSpecS (p : Inp) (kn : ℕ → ℕ → ℚ) (BS : ℕ) (useMask : Bool) (t offset : ℕ)
    (qr : ℕ → ℚ) : Fin BS → ℚ :=
  fun jj =>
    if useMask ∧ offset + BS > t then 0
    else
      Matrix.dotProduct (fun f : Fin (nextPow2 p.K) => qr f)
        (fun f : Fin (nextPow2 p.K) => ld2 p.T p.K kn (offset + (jj : ℕ)) f)

/-! # Theorems -/

theorem Tsub_eq (L : ℕ → ℕ → ℚ) (i j : ℕ) :
    Tsub L i j =
      (if i = j then (1 : ℚ) else 0) - ∑ m ∈ Finset.range i, L i m * Tsub L m j := by
  rw [Tsub]
  congr 1
  exact Finset.sum_attach (Finset.range i) (fun m => L i m * Tsub L m j)

/-- The correction matrix is lower triangular: entries above the diagonal
vanish. -/
theorem Tsub_upper_zero (L : ℕ → ℕ → ℚ) :
    ∀ i j : ℕ, i < j → Tsub L i j = 0 := by
  intro i
  induction i using Nat.strong_induction_on with
  | _ i ih =>
    intro j hij
    rw [Tsub_eq]
    have hne : i ≠ j := Nat.ne_of_lt hij
    rw [if_neg hne]
    have hz : ∀ m ∈ Finset.range i, L i m * Tsub L m j = 0 := by
      intro m hm
      have hmi : m < i := Finset.mem_range.mp hm
      rw [ih m hmi j (lt_trans hmi hij), mul_zero]
    rw [Finset.sum_congr rfl hz]
    simp

/-- Entry `(i, j)` of the correction matrix depends only on the rows `≤ i`
of the strictly-lower-triangular input. -/
theorem Tsub_congr (L₁ L₂ : ℕ → ℕ → ℚ) :
    ∀ i j : ℕ, (∀ i' ≤ i, ∀ m, L₁ i' m = L₂ i' m) → Tsub L₁ i j = Tsub L₂ i j := by
  intro i
  induction i using Nat.strong_induction_on with
  | _ i ih =>
    intro j h
    rw [Tsub_eq, Tsub_eq]
    congr 1
    apply Finset.sum_congr rfl
    intro m hm
    have hmi : m < i := Finset.mem_range.mp hm
    rw [h i le_rfl m, ih m hmi j]
    intro i' hi' m'
    exact h i' (le_trans hi' (le_of_lt hmi)) m'

/-- With a vanishing lower triangle the correction matrix is the identity. -/
theorem Tsub_of_zero (L : ℕ → ℕ → ℚ) (hL : ∀ i m, L i m = 0) :
    ∀ i j : ℕ, Tsub L i j = if i = j then (1 : ℚ) else 0 := by
  intro i j
  rw [Tsub_eq]
  have hz : ∀ m ∈ Finset.range i, L i m * Tsub L m j = 0 := by
    intro m _
    rw [hL i m, zero_mul]
  rw [Finset.sum_congr rfl hz]
  simp

/-! ## Error-handling claims -/

/-- C7: for every input whose key feature width exceeds 128, the forward
operation returns the validation error — the precondition check is the first
statement of `ParallelDeltaRuleFunction.forward`, before the
ChunkCorrectionSolver call, any kernel launch, or any output allocation, so
no partially written output is observable. -/
theorem claim7_k_width_validation (p : Inp) (scale : Option ℚ) (oattn : Bool)
    (hK : 128 < p.K) :
    ParallelDeltaRuleFunction.forward p scale oattn = Except.error FlaErr.validation := by
  unfold ParallelDeltaRuleFunction.forward
  rw [if_pos hK]

theorem claim7_k_width_validation_witness :
    128 < (Inp.mk 1 129 1 (fun _ _ => 0) (fun _ _ => 0) (fun _ _ => 0) (fun _ => 0)).K ∧
      ParallelDeltaRuleFunction.forward
        (Inp.mk 1 129 1 (fun _ _ => 0) (fun _ _ => 0) (fun _ _ => 0) (fun _ => 0)) none false =
        Except.error FlaErr.validation :=
  ⟨by decide, claim7_k_width_validation _ none false (by decide)⟩

/-- C8: with `head_first = True`, `parallel_delta_rule` raises the
deprecation error for every combination of the other arguments, before the
forward computation is reached. -/
theorem claim8_head_first_always_raises (p : Inp) (scale : Option ℚ) (oattn : Bool) :
    parallel_delta_rule p scale oattn true = Except.error FlaErr.deprecation :=
  rfl

/-- C9: `ParallelDeltaRuleFunction.backward` raises the distinct
not-implemented error for every gradient argument; it never returns a
gradient. -/
theorem claim9_backward_raises (dout : ℕ → ℕ → ℚ) (dAttn : Option (ℕ → ℕ → ℚ)) :
    ParallelDeltaRuleFunction.backward dout dAttn = Except.error FlaErr.notImplemented :=
  rfl

/-- C10: the chunk decomposition is fixed: every successful call of
`parallel_delta_rule` — whatever its arguments — returns the engine output at
correction/key-block chunk size 32 and query block size 128, and the public
signature offers no parameter that could select another size. -/
theorem claim10_fixed_chunk_sizes (p : Inp) (s : ℚ) (oattn hf : Bool) (out : FwdOut)
    (h : parallel_delta_rule p (some s) oattn hf = Except.ok out) :
    out.o = engineO 32 128 32 p s := by
  cases hf with
  | true => simp [parallel_delta_rule] at h
  | false =>
    simp only [parallel_delta_rule, Bool.false_eq_true, if_false] at h
    unfold ParallelDeltaRuleFunction.forward at h
    by_cases hK : 128 < p.K
    · rw [if_pos hK] at h
      exact absurd h (by simp)
    · rw [if_neg hK] at h
      have := (Except.ok.injEq _ _ ).mp h
      rw [← this]
      rfl

theorem claim10_fixed_chunk_sizes_witness :
    (FwdOut.mk (fwdO inpZ 1) none).o = engineO 32 128 32 inpZ 1 :=
  claim10_fixed_chunk_sizes inpZ 1 false false (FwdOut.mk (fwdO inpZ 1) none) rfl

/-- C6 fails on the code: the docstring promises that an omitted `scale`
defaults to `1/sqrt(K)`, but `parallel_delta_rule` never substitutes the
default — `None` is handed to `forward` and reaches the kernel scale
multiplication, so the call fails instead of reproducing the explicit
`scale = 1/sqrt(K) = 1` run (here `K = 1`). -/
theorem claim6_default_scale_broken :
    parallel_delta_rule inpZ none false false ≠ parallel_delta_rule inpZ (some 1) false false ∧
      parallel_delta_rule inpZ none false false = Except.error FlaErr.invalidScale ∧
      ∃ out, parallel_delta_rule inpZ (some 1) false false = Except.ok out := by
  refine ⟨?_, rfl, ⟨_, rfl⟩⟩
  intro h
  have h2 : parallel_delta_rule inpZ none false false = Except.error FlaErr.invalidScale := rfl
  have h3 : parallel_delta_rule inpZ (some 1) false false =
      Except.ok (FwdOut.mk (fwdO inpZ 1) none) := rfl
  rw [h2, h3] at h
  exact Except.noConfusion h

/-! ## Helper facts about padded loads and chunk index arithmetic -/

theorem le_nextPow2 (n : ℕ) : n ≤ nextPow2 n :=
  Nat.le_pow_clog (by norm_num) n

/-- A dot product against a vector vanishing from lane `K` on can be
truncated from `N ≥ K` lanes to `K` lanes. -/
theorem dotR_truncate (N K : ℕ) (hKN : K ≤ N) (a b : ℕ → ℚ) (hb : ∀ f, K ≤ f → b f = 0) :
    dotR N a b = dotR K a b := by
  unfold dotR
  symm
  apply Finset.sum_subset (Finset.range_subset.mpr hKN)
  intro f _ hfK
  rw [hb f (Nat.le_of_not_lt (fun h => hfK (Finset.mem_range.mpr h))), mul_zero]

theorem ld2_zero_of_col (T K : ℕ) (x : ℕ → ℕ → ℚ) (t f : ℕ) (hf : K ≤ f) :
    ld2 T K x t f = 0 := by
  unfold ld2
  rw [if_neg]
  rintro ⟨-, hlt⟩
  omega

theorem ld2_zero_of_row (T K : ℕ) (x : ℕ → ℕ → ℚ) (t f : ℕ) (ht : T ≤ t) :
    ld2 T K x t f = 0 := by
  unfold ld2
  rw [if_neg]
  rintro ⟨hlt, -⟩
  omega

theorem chunk_div (BC c r : ℕ) (hr : r < BC) : (c * BC + r) / BC = c := by
  have hBC : 0 < BC := Nat.lt_of_le_of_lt (Nat.zero_le r) hr
  rw [mul_comm c BC, Nat.mul_add_div hBC, Nat.div_eq_of_lt hr, Nat.add_zero]

theorem chunk_mod (BC c r : ℕ) (hr : r < BC) : (c * BC + r) % BC = r := by
  rw [mul_comm c BC, Nat.mul_add_mod, Nat.mod_eq_of_lt hr]

/-! ## C3: the IntraChunkTransformer computes the spec formulas -/

theorem ctSqk_entry (p : Inp) (scale : ℚ) (BC c : ℕ) (r : Fin BC) (m : ℕ) :
    ctSqk p scale BC (c * BC + (r : ℕ)) m =
      if m ≤ (r : ℕ) then
        dotR p.K (fun f => ctQ p scale (c * BC + (r : ℕ)) f)
          (fun f => ld2 p.T p.K p.k (c * BC + m) f)
      else 0 := by
  unfold ctSqk
  rw [chunk_mod BC c r r.2, chunk_div BC c r r.2]
  split
  · exact dotR_truncate _ _ (le_nextPow2 _) _ _ (fun f hf => ld2_zero_of_col _ _ _ _ _ hf)
  · rfl

theorem ctSkk_entry (p : Inp) (BC c : ℕ) (r : Fin BC) (m : ℕ) :
    ctSkk p BC (c * BC + (r : ℕ)) m =
      if m < (r : ℕ) then
        dotR p.K (fun f => ld2 p.T p.K p.k (c * BC + (r : ℕ)) f)
          (fun f => ld2 p.T p.K p.k (c * BC + m) f)
      else 0 := by
  unfold ctSkk
  rw [chunk_mod BC c r r.2, chunk_div BC c r r.2]
  split
  · exact dotR_truncate _ _ (le_nextPow2 _) _ _ (fun f hf => ld2_zero_of_col _ _ _ _ _ hf)
  · rfl

theorem ctSqkT_entry (p : Inp) (scale : ℚ) (BC : ℕ) (A : ℕ → ℕ → ℚ) (c : ℕ)
    (r j : Fin BC) :
    ctSqkT p scale BC A (c * BC + (r : ℕ)) (j : ℕ) = specSqkC p scale BC A c r j := by
  unfold ctSqkT specSqkC
  rw [chunk_div BC c r r.2, Matrix.mul_apply,
    ← Fin.sum_univ_eq_sum_range
      (fun m => ctSqk p scale BC (c * BC + (r : ℕ)) m * ld2 p.T BC A (c * BC + m) (j : ℕ)) BC]
  apply Finset.sum_congr rfl
  intro m _
  have hTm : ld2 p.T BC A (c * BC + (m : ℕ)) (j : ℕ) = specTm p BC A c m j := rfl
  rw [hTm]
  congr 1
  rw [ctSqk_entry]
  unfold specSqk
  rw [Matrix.of_apply]
  by_cases hm : (m : ℕ) ≤ (r : ℕ)
  · rw [if_pos hm, if_pos hm, Matrix.mul_apply]
    unfold dotR
    rw [← Fin.sum_univ_eq_sum_range
      (fun f => ctQ p scale (c * BC + (r : ℕ)) f * ld2 p.T p.K p.k (c * BC + (m : ℕ)) f) p.K]
    apply Finset.sum_congr rfl
    intro f _
    simp only [Matrix.smul_apply, Matrix.transpose_apply, smul_eq_mul, specQm, specKm,
      Matrix.of_apply, ctQ]
    ring
  · rw [if_neg hm, if_neg hm]

theorem ctSkkT_entry (p : Inp) (BC : ℕ) (A : ℕ → ℕ → ℚ) (c : ℕ) (r j : Fin BC) :
    ctSkkT p BC A (c * BC + (r : ℕ)) (j : ℕ) = specSkkC p BC A c r j := by
  unfold ctSkkT specSkkC
  rw [chunk_div BC c r r.2, Matrix.mul_apply,
    ← Fin.sum_univ_eq_sum_range
      (fun m => ctSkk p BC (c * BC + (r : ℕ)) m * ld2 p.T BC A (c * BC + m) (j : ℕ)) BC]
  apply Finset.sum_congr rfl
  intro m _
  have hTm : ld2 p.T BC A (c * BC + (m : ℕ)) (j : ℕ) = specTm p BC A c m j := rfl
  rw [hTm]
  congr 1
  rw [ctSkk_entry]
  unfold specSkk
  rw [Matrix.of_apply]
  by_cases hm : (m : ℕ) < (r : ℕ)
  · rw [if_pos hm, if_pos hm, Matrix.mul_apply]
    unfold dotR
    rw [← Fin.sum_univ_eq_sum_range
      (fun f => ld2 p.T p.K p.k (c * BC + (r : ℕ)) f * ld2 p.T p.K p.k (c * BC + (m : ℕ)) f) p.K]
    apply Finset.sum_congr rfl
    intro f _
    simp only [Matrix.transpose_apply, specKm, Matrix.of_apply]
  · rw [if_neg hm, if_neg hm]

/-- C3: per chunk, the IntraChunkTransformer kernel produces exactly the
matrix-algebra quantities of spec §4.1: `O = S_qk′·V`,
`Q′ = Q·scale − S_qk′·(K⊙gate)` and `K′ = K − (S_kk′)ᵀ·(K⊙gate)`, where
`S_qk′ = S_qk·T` and `S_kk′ = S_kk·T` with `S_qk` the inclusively-causal
masked `(Q·scale)·Kᵀ` and `S_kk` the strictly-causal masked `K·Kᵀ`. -/
theorem claim3_intra_chunk_transform (p : Inp) (scale : ℚ) (BC : ℕ) (A : ℕ → ℕ → ℚ)
    (c : ℕ) (r : Fin BC) (f : Fin p.K) (fv : Fin p.V) :
    ctO p scale BC A (c * BC + (r : ℕ)) (fv : ℕ) = specO p scale BC A c r fv ∧
    ctQnew p scale BC A (c * BC + (r : ℕ)) (f : ℕ) = specQc p scale BC A c r f ∧
    ctKnew p BC A (c * BC + (r : ℕ)) (f : ℕ) = specKc p BC A c r f := by
  refine ⟨?_, ?_, ?_⟩
  · unfold ctO specO
    rw [chunk_div BC c r r.2, Matrix.mul_apply,
      ← Fin.sum_univ_eq_sum_range
        (fun j => ctSqkT p scale BC A (c * BC + (r : ℕ)) j *
          ld2 p.T p.V p.v (c * BC + j) (fv : ℕ)) BC]
    apply Finset.sum_congr rfl
    intro j _
    rw [ctSqkT_entry]
    rfl
  · unfold ctQnew specQc
    rw [chunk_div BC c r r.2, Matrix.sub_apply, Matrix.mul_apply,
      ← Fin.sum_univ_eq_sum_range
        (fun j => ctSqkT p scale BC A (c * BC + (r : ℕ)) j *
          (ld2 p.T p.K p.k (c * BC + j) (f : ℕ) * ld p.T p.beta (c * BC + j))) BC]
    congr 1
    · simp only [Matrix.smul_apply, smul_eq_mul, ctQ, specQm, Matrix.of_apply]
      ring
    · apply Finset.sum_congr rfl
      intro j _
      rw [ctSqkT_entry]
      rfl
  · unfold ctKnew specKc
    rw [chunk_div BC c r r.2, chunk_mod BC c r r.2, Matrix.sub_apply, Matrix.mul_apply,
      ← Fin.sum_univ_eq_sum_range
        (fun j => ctSkkT p BC A (c * BC + j) (r : ℕ) *
          (ld2 p.T p.K p.k (c * BC + j) (f : ℕ) * ld p.T p.beta (c * BC + j))) BC]
    congr 1
    apply Finset.sum_congr rfl
    intro j _
    rw [Matrix.transpose_apply, ctSkkT_entry p BC A c j r]
    rfl

/-! ## C4: the InterChunkScanner visit order and step semantics -/

theorem pdOffsL_eq (iT : ℕ) :
    pdOffsL 128 32 iT = (List.range 3).map (fun n => iT * 128 + 64 - n * 32) := by
  unfold pdOffsL
  norm_num

theorem pdOffsR_eq (iT : ℕ) :
    pdOffsR 128 32 iT = (List.range (4 * iT)).map (fun n => iT * 128 - 32 - n * 32) := by
  unfold pdOffsR
  have h : iT * 128 / 32 = 4 * iT := by
    rw [Nat.mul_div_assoc iT (by norm_num : (32 : ℕ) ∣ 128)]
    norm_num
    ring
  rw [h]

/-- The two scan loops together visit exactly the offsets
`iT*128 + 64, iT*128 + 32, ..., 32, 0`: one arithmetic sequence of step
`-32` from the second-to-last key block of the query block down to offset
zero. -/
theorem pdOffs_eq (iT : ℕ) :
    pdOffsL 128 32 iT ++ pdOffsR 128 32 iT =
      (List.range (4 * iT + 3)).map (fun n => iT * 128 + 64 - n * 32) := by
  rw [pdOffsL_eq, pdOffsR_eq, show 4 * iT + 3 = 3 + 4 * iT by omega, List.range_add,
    List.map_append]
  congr 1
  rw [List.map_map]
  apply List.map_congr_left
  intro n hn
  have hn' : n < 4 * iT := List.mem_range.mp hn
  show iT * 128 - 32 - n * 32 = iT * 128 + 64 - (3 + n) * 32
  omega

/-- The visited offsets are strictly decreasing. -/
theorem pdOffs_decreasing (iT : ℕ) :
    (pdOffsL 128 32 iT ++ pdOffsR 128 32 iT).Chain' (fun a b => b < a) := by
  rw [pdOffs_eq, List.chain'_map, show 4 * iT + 3 = (4 * iT + 2) + 1 from rfl,
    List.chain'_range_succ]
  intro n hn
  omega

/-- Each raw score entry equals the spec form: the running register dotted
with the corrected key block over the padded feature lanes. -/
theorem scanSpecS_eq (p : Inp) (kn : ℕ → ℕ → ℚ) (BS : ℕ) (um : Bool) (t offset : ℕ)
    (qr : ℕ → ℚ) (jj : Fin BS) :
    scanSpecS p kn BS um t offset qr jj =
      if um ∧ offset + BS > t then 0 else pdScore p kn qr offset (jj : ℕ) := by
  unfold scanSpecS pdScore dotR Matrix.dotProduct
  congr 1
  exact Fin.sum_univ_eq_sum_range
    (fun f => qr f * ld2 p.T p.K kn (offset + (jj : ℕ)) f) (nextPow2 p.K)

/-- C4: for query chunk `iT` the scanner visits the earlier key blocks in
strictly decreasing offset order down to chunk 0 (the concatenated overlap
and disjoint loops form the arithmetic sequence `iT*128+64, ..., 32, 0`),
and each visited block updates the state by `O += S·V` and
`Q_running -= S·(K_original⊙gate)`, where the score row `S` is the running
query register dotted with the chunk-corrected keys `kn` (masked in the
overlap loop) while the subtracted update term reads the original key tensor
`p.k`. -/
theorem claim4_inter_chunk_scan (iT : ℕ) (p : Inp) (kn : ℕ → ℕ → ℚ) (um : Bool)
    (t offset : ℕ) (s : SState) (fv f : ℕ) :
    (pdOffsL 128 32 iT ++ pdOffsR 128 32 iT =
        (List.range (4 * iT + 3)).map (fun n => iT * 128 + 64 - n * 32)) ∧
    (pdOffsL 128 32 iT ++ pdOffsR 128 32 iT).Chain' (fun a b => b < a) ∧
    ((pdStep p kn 32 um t s offset).oa fv =
        s.oa fv +
          Matrix.dotProduct (scanSpecS p kn 32 um t offset s.qr)
            (fun jj : Fin 32 => ld2 p.T p.V p.v (offset + (jj : ℕ)) fv)) ∧
    ((pdStep p kn 32 um t s offset).qr f =
        s.qr f -
          Matrix.dotProduct (scanSpecS p kn 32 um t offset s.qr)
            (fun jj : Fin 32 =>
              ld2 p.T p.K p.k (offset + (jj : ℕ)) f * ld p.T p.beta (offset + (jj : ℕ)))) := by
  refine ⟨pdOffs_eq iT, pdOffs_decreasing iT, ?_, ?_⟩
  · show s.oa fv + _ = _
    congr 1
    unfold Matrix.dotProduct
    rw [← Fin.sum_univ_eq_sum_range
      (fun jj => (if um ∧ offset + 32 > t then 0 else pdScore p kn s.qr offset jj) *
        ld2 p.T p.V p.v (offset + jj) fv) 32]
    apply Finset.sum_congr rfl
    intro jj _
    rw [scanSpecS_eq]
  · show s.qr f - _ = _
    congr 1
    unfold Matrix.dotProduct
    rw [← Fin.sum_univ_eq_sum_range
      (fun jj => (if um ∧ offset + 32 > t then 0 else pdScore p kn s.qr offset jj) *
        (ld2 p.T p.K p.k (offset + jj) f * ld p.T p.beta (offset + jj))) 32]
    apply Finset.sum_congr rfl
    intro jj _
    rw [scanSpecS_eq]

/-! ## C5: strict causality and diagonal blocks of the attention matrix -/

theorem ld2_of_entry_zero (T K : ℕ) (x : ℕ → ℕ → ℚ) (t f : ℕ) (h : x t f = 0) :
    ld2 T K x t f = 0 := by
  unfold ld2
  split
  · exact h
  · rfl

/-- Projection of one scan step: the stored attention row. -/
theorem pdStep_ar (p : Inp) (kn : ℕ → ℕ → ℚ) (BS : ℕ) (um : Bool) (t : ℕ) (s : SState)
    (offset sIdx : ℕ) :
    (pdStep p kn BS um t s offset).ar sIdx =
      if offset ≤ sIdx ∧ sIdx < offset + BS ∧ t < p.T ∧ sIdx < p.T then
        (if um ∧ offset + BS > t then 0 else pdScore p kn s.qr offset (sIdx - offset))
      else s.ar sIdx :=
  rfl

/-- Projection of one scan step: the output accumulator. -/
theorem pdStep_oa (p : Inp) (kn : ℕ → ℕ → ℚ) (BS : ℕ) (um : Bool) (t : ℕ) (s : SState)
    (offset fv : ℕ) :
    (pdStep p kn BS um t s offset).oa fv =
      s.oa fv +
        ∑ jj ∈ Finset.range BS,
          (if um ∧ offset + BS > t then 0 else pdScore p kn s.qr offset jj) *
            ld2 p.T p.V p.v (offset + jj) fv :=
  rfl

/-- Projection of one scan step: the running query register. -/
theorem pdStep_qr (p : Inp) (kn : ℕ → ℕ → ℚ) (BS : ℕ) (um : Bool) (t : ℕ) (s : SState)
    (offset f : ℕ) :
    (pdStep p kn BS um t s offset).qr f =
      s.qr f -
        ∑ jj ∈ Finset.range BS,
          (if um ∧ offset + BS > t then 0 else pdScore p kn s.qr offset jj) *
            (ld2 p.T p.K p.k (offset + jj) f * ld p.T p.beta (offset + jj)) :=
  rfl

/-- The corrected intra-chunk scores are strictly causal within the chunk:
columns past the local row vanish, because the causal mask bounds the raw
scores and the correction matrix is lower triangular. -/
theorem ctSqkT_tri (p : Inp) (scale : ℚ) (BC : ℕ) (t j : ℕ) (hj : t % BC < j) :
    ctSqkT p scale BC (prepT p BC) t j = 0 := by
  unfold ctSqkT
  apply Finset.sum_eq_zero
  intro m hm
  have hmBC : m < BC := Finset.mem_range.mp hm
  by_cases hmr : m ≤ t % BC
  · have hz : prepT p BC ((t / BC) * BC + m) j = 0 := by
      unfold prepT
      rw [chunk_mod BC (t / BC) m hmBC]
      exact Tsub_upper_zero _ m j (lt_of_le_of_lt hmr hj)
    rw [ld2_of_entry_zero _ _ _ _ _ hz, mul_zero]
  · unfold ctSqk
    rw [if_neg hmr, zero_mul]

/-- Every offset of the disjoint loop ends before the query block starts. -/
theorem pdOffsR_le (iT o : ℕ) (ho : o ∈ pdOffsR 128 32 iT) : o + 32 ≤ iT * 128 := by
  rw [pdOffsR_eq] at ho
  obtain ⟨n, hn, rfl⟩ := List.mem_map.mp ho
  have := List.mem_range.mp hn
  omega

/-- Folding scan steps never writes a nonzero value strictly above the
diagonal: a masked store at a column past the row stores zero, and an
unmasked (disjoint-phase) block ends at or before the row. -/
theorem foldl_pdStep_ar_zero (p : Inp) (kn : ℕ → ℕ → ℚ) (um : Bool) (t sC : ℕ)
    (hts : t < sC) :
    ∀ l : List ℕ, (∀ o ∈ l, um = true ∨ o + 32 ≤ t) →
      ∀ st : SState, st.ar sC = 0 → (l.foldl (pdStep p kn 32 um t) st).ar sC = 0 := by
  intro l
  induction l with
  | nil => intro _ st h; exact h
  | cons o tl ih =>
    intro hl st h
    show (tl.foldl _ (pdStep p kn 32 um t st o)).ar sC = 0
    apply ih (fun x hx => hl x (List.mem_cons_of_mem o hx))
    rw [pdStep_ar]
    by_cases hc : o ≤ sC ∧ sC < o + 32 ∧ t < p.T ∧ sC < p.T
    · rw [if_pos hc]
      rcases hl o (List.mem_cons_self o tl) with hum | hle
      · rw [if_pos ⟨hum, by omega⟩]
      · exfalso
        omega
    · rw [if_neg hc]
      exact h

/-- Above the diagonal, the scan leaves the zero-initialised attention buffer
untouched (or overwrites it with masked zeros). -/
theorem pdScan_ar_causal (p : Inp) (qn kn oIn : ℕ → ℕ → ℚ) (t sC : ℕ) (hts : t < sC) :
    (pdScan p qn kn oIn 128 32 t).ar sC = 0 := by
  unfold pdScan
  apply foldl_pdStep_ar_zero p kn false t sC hts _ ?_
  · apply foldl_pdStep_ar_zero p kn true t sC hts _ (fun o _ => Or.inl rfl)
    rfl
  · intro o ho
    right
    calc o + 32 ≤ (t / 128) * 128 := pdOffsR_le _ o ho
    _ ≤ t := Nat.div_mul_le_self _ _

/-- C5: when attentions are materialized, every entry of the returned
`(T, T)` matrix whose key time is strictly greater than its query time is
exactly zero, and within each diagonal 32-block the entry equals the
corrected intra-chunk score `b_qkT` (`A_local`) computed by the
IntraChunkTransformer. -/
theorem claim5_attention_matrix (p : Inp) (scale : ℚ) (t sC : ℕ)
    (ht : t < p.T) (hs : sC < p.T) :
    (t < sC → fwdAttn p scale t sC = 0) ∧
    (t / 32 = sC / 32 →
      fwdAttn p scale t sC = ctSqkT p scale 32 (prepT p 32) t (sC % 32)) := by
  constructor
  · intro hts
    unfold fwdAttn
    by_cases hd : t / 32 = sC / 32 ∧ t < p.T ∧ sC < p.T
    · rw [if_pos hd]
      have h1 : 32 * (t / 32) + t % 32 = t := Nat.div_add_mod t 32
      have h2 : 32 * (sC / 32) + sC % 32 = sC := Nat.div_add_mod sC 32
      have h3 : t % 32 < 32 := Nat.mod_lt _ (by norm_num)
      have h4 : sC % 32 < 32 := Nat.mod_lt _ (by norm_num)
      have hd1 : t / 32 = sC / 32 := hd.1
      have hmod : t % 32 < sC % 32 := by omega
      exact ld2_of_entry_zero _ _ _ _ _ (ctSqkT_tri p scale 32 t (sC % 32) hmod)
    · rw [if_neg hd]
      exact pdScan_ar_causal p _ _ _ t sC hts
  · intro hd
    unfold fwdAttn
    rw [if_pos ⟨hd, ht, hs⟩]
    unfold ld2
    rw [if_pos ⟨ht, Nat.mod_lt _ (by norm_num)⟩]

theorem claim5_attention_matrix_witness :
    0 < inpZ.T ∧
      fwdAttn inpZ 1 0 0 = ctSqkT inpZ 1 32 (prepT inpZ 32) 0 (0 % 32) :=
  ⟨by decide, (claim5_attention_matrix inpZ 1 0 0 (by decide) (by decide)).2 rfl⟩

/-! ## C2: causality of the forward engine

Two inputs with identical shapes and queries that agree on keys, values and
gates at all times `≤ t` produce identical outputs at all times `≤ t`.  The
chain of congruence lemmas below tracks which time indices each intermediate
tensor of the engine can read. -/

theorem ld_congr (T : ℕ) (x y : ℕ → ℚ) (u : ℕ) (h : x u = y u) :
    ld T x u = ld T y u := by
  unfold ld
  split
  · exact h
  · rfl

theorem ld2_congr (T K : ℕ) (x y : ℕ → ℕ → ℚ) (u f : ℕ) (h : x u f = y u f) :
    ld2 T K x u f = ld2 T K y u f := by
  unfold ld2
  split
  · exact h
  · rfl

theorem dotR_congr (n : ℕ) (a b a2 b2 : ℕ → ℚ) (ha : ∀ f, a f = a2 f)
    (hb : ∀ f, b f = b2 f) : dotR n a b = dotR n a2 b2 := by
  unfold dotR
  apply Finset.sum_congr rfl
  intro f _
  rw [ha f, hb f]

section Causality

variable {T K V : ℕ} {q k1 v1 k2 v2 : ℕ → ℕ → ℚ} {b1 b2 : ℕ → ℚ} {t : ℕ}

theorem prepL_congr (hk : ∀ u, u ≤ t → ∀ f, k1 u f = k2 u f)
    (hb : ∀ u, u ≤ t → b1 u = b2 u) (c i m : ℕ) (hit : c * 32 + i ≤ t) :
    prepL ⟨T, K, V, q, k1, v1, b1⟩ 32 c i m = prepL ⟨T, K, V, q, k2, v2, b2⟩ 32 c i m := by
  unfold prepL
  split
  · next hmi =>
    rw [ld_congr _ _ _ _ (hb _ hit)]
    congr 1
    apply dotR_congr
    · intro f
      exact ld2_congr _ _ _ _ _ _ (hk _ hit f)
    · intro f
      exact ld2_congr _ _ _ _ _ _ (hk _ (by omega) f)
  · rfl

theorem prepT_congr (hk : ∀ u, u ≤ t → ∀ f, k1 u f = k2 u f)
    (hb : ∀ u, u ≤ t → b1 u = b2 u) (u j : ℕ) (hu : u ≤ t) :
    prepT ⟨T, K, V, q, k1, v1, b1⟩ 32 u j = prepT ⟨T, K, V, q, k2, v2, b2⟩ 32 u j := by
  unfold prepT
  apply Tsub_congr
  intro i hi m
  have h1 : 32 * (u / 32) + u % 32 = u := Nat.div_add_mod u 32
  exact prepL_congr hk hb (u / 32) i m (by omega)

theorem ctSqk_congr (hk : ∀ u, u ≤ t → ∀ f, k1 u f = k2 u f) (scale : ℚ)
    (u m : ℕ) (hu : u ≤ t) :
    ctSqk ⟨T, K, V, q, k1, v1, b1⟩ scale 32 u m =
      ctSqk ⟨T, K, V, q, k2, v2, b2⟩ scale 32 u m := by
  unfold ctSqk
  split
  · next hm =>
    have h1 : 32 * (u / 32) + u % 32 = u := Nat.div_add_mod u 32
    apply dotR_congr
    · intro f
      rfl
    · intro f
      exact ld2_congr _ _ _ _ _ _ (hk _ (by omega) f)
  · rfl

theorem ctSkk_congr (hk : ∀ u, u ≤ t → ∀ f, k1 u f = k2 u f) (u m : ℕ)
    (hcend : (u / 32) * 32 + 32 ≤ t + 1) :
    ctSkk ⟨T, K, V, q, k1, v1, b1⟩ 32 u m = ctSkk ⟨T, K, V, q, k2, v2, b2⟩ 32 u m := by
  unfold ctSkk
  split
  · next hm =>
    have h1 : 32 * (u / 32) + u % 32 = u := Nat.div_add_mod u 32
    have h2 : u % 32 < 32 := Nat.mod_lt _ (by norm_num)
    apply dotR_congr
    · intro f
      exact ld2_congr _ _ _ _ _ _ (hk _ (by omega) f)
    · intro f
      exact ld2_congr _ _ _ _ _ _ (hk _ (by omega) f)
  · rfl

theorem ctSqkT_congr (hk : ∀ u, u ≤ t → ∀ f, k1 u f = k2 u f)
    (hb : ∀ u, u ≤ t → b1 u = b2 u) (scale : ℚ) (u j : ℕ) (hu : u ≤ t) :
    ctSqkT ⟨T, K, V, q, k1, v1, b1⟩ scale 32 (prepT ⟨T, K, V, q, k1, v1, b1⟩ 32) u j =
      ctSqkT ⟨T, K, V, q, k2, v2, b2⟩ scale 32 (prepT ⟨T, K, V, q, k2, v2, b2⟩ 32) u j := by
  unfold ctSqkT
  apply Finset.sum_congr rfl
  intro m hm
  have hm32 : m < 32 := Finset.mem_range.mp hm
  by_cases hmr : m ≤ u % 32
  · have h1 : 32 * (u / 32) + u % 32 = u := Nat.div_add_mod u 32
    rw [ctSqk_congr hk scale u m hu,
      ld2_congr _ _ _ _ _ _ (prepT_congr hk hb ((u / 32) * 32 + m) j (by omega))]
  · unfold ctSqk
    simp only [if_neg hmr, zero_mul]

theorem ctSkkT_congr (hk : ∀ u, u ≤ t → ∀ f, k1 u f = k2 u f)
    (hb : ∀ u, u ≤ t → b1 u = b2 u) (u j : ℕ)
    (hcend : (u / 32) * 32 + 32 ≤ t + 1) :
    ctSkkT ⟨T, K, V, q, k1, v1, b1⟩ 32 (prepT ⟨T, K, V, q, k1, v1, b1⟩ 32) u j =
      ctSkkT ⟨T, K, V, q, k2, v2, b2⟩ 32 (prepT ⟨T, K, V, q, k2, v2, b2⟩ 32) u j := by
  unfold ctSkkT
  apply Finset.sum_congr rfl
  intro m hm
  have hm32 : m < 32 := Finset.mem_range.mp hm
  rw [ctSkk_congr hk u m hcend,
    ld2_congr _ _ _ _ _ _ (prepT_congr hk hb ((u / 32) * 32 + m) j (by omega))]

theorem ctO_congr (hk : ∀ u, u ≤ t → ∀ f, k1 u f = k2 u f)
    (hb : ∀ u, u ≤ t → b1 u = b2 u) (hv : ∀ u, u ≤ t → ∀ f, v1 u f = v2 u f)
    (scale : ℚ) (u fv : ℕ) (hu : u ≤ t) :
    ctO ⟨T, K, V, q, k1, v1, b1⟩ scale 32 (prepT ⟨T, K, V, q, k1, v1, b1⟩ 32) u fv =
      ctO ⟨T, K, V, q, k2, v2, b2⟩ scale 32 (prepT ⟨T, K, V, q, k2, v2, b2⟩ 32) u fv := by
  unfold ctO
  apply Finset.sum_congr rfl
  intro j hj
  have hj32 : j < 32 := Finset.mem_range.mp hj
  by_cases hjr : j ≤ u % 32
  · have h1 : 32 * (u / 32) + u % 32 = u := Nat.div_add_mod u 32
    rw [ctSqkT_congr hk hb scale u j hu, ld2_congr _ _ _ _ _ _ (hv _ (by omega) fv)]
  · rw [ctSqkT_tri _ scale 32 u j (by omega), ctSqkT_tri _ scale 32 u j (by omega),
      zero_mul, zero_mul]

theorem ctQnew_congr (hk : ∀ u, u ≤ t → ∀ f, k1 u f = k2 u f)
    (hb : ∀ u, u ≤ t → b1 u = b2 u) (scale : ℚ) (u f : ℕ) (hu : u ≤ t) :
    ctQnew ⟨T, K, V, q, k1, v1, b1⟩ scale 32 (prepT ⟨T, K, V, q, k1, v1, b1⟩ 32) u f =
      ctQnew ⟨T, K, V, q, k2, v2, b2⟩ scale 32 (prepT ⟨T, K, V, q, k2, v2, b2⟩ 32) u f := by
  unfold ctQnew
  congr 1
  apply Finset.sum_congr rfl
  intro j hj
  have hj32 : j < 32 := Finset.mem_range.mp hj
  by_cases hjr : j ≤ u % 32
  · have h1 : 32 * (u / 32) + u % 32 = u := Nat.div_add_mod u 32
    rw [ctSqkT_congr hk hb scale u j hu, ld2_congr _ _ _ _ _ _ (hk _ (by omega) f),
      ld_congr _ _ _ _ (hb _ (by omega))]
  · rw [ctSqkT_tri _ scale 32 u j (by omega), ctSqkT_tri _ scale 32 u j (by omega),
      zero_mul, zero_mul]

theorem ctKnew_congr (hk : ∀ u, u ≤ t → ∀ f, k1 u f = k2 u f)
    (hb : ∀ u, u ≤ t → b1 u = b2 u) (u f : ℕ)
    (hcend : (u / 32) * 32 + 32 ≤ t + 1) :
    ctKnew ⟨T, K, V, q, k1, v1, b1⟩ 32 (prepT ⟨T, K, V, q, k1, v1, b1⟩ 32) u f =
      ctKnew ⟨T, K, V, q, k2, v2, b2⟩ 32 (prepT ⟨T, K, V, q, k2, v2, b2⟩ 32) u f := by
  unfold ctKnew
  have h1 : 32 * (u / 32) + u % 32 = u := Nat.div_add_mod u 32
  have h2 : u % 32 < 32 := Nat.mod_lt _ (by norm_num)
  rw [ld2_congr _ _ _ _ _ _ (hk u (by omega) f)]
  congr 1
  apply Finset.sum_congr rfl
  intro j hj
  have hj32 : j < 32 := Finset.mem_range.mp hj
  have hrow : ((u / 32) * 32 + j) / 32 = u / 32 := chunk_div 32 (u / 32) j hj32
  rw [ctSkkT_congr hk hb ((u / 32) * 32 + j) (u % 32) (by rw [hrow]; exact hcend),
    ld2_congr _ _ _ _ _ _ (hk _ (by omega) f), ld_congr _ _ _ _ (hb _ (by omega))]

theorem pdStep_congr (hk : ∀ u, u ≤ t → ∀ f, k1 u f = k2 u f)
    (hb : ∀ u, u ≤ t → b1 u = b2 u) (hv : ∀ u, u ≤ t → ∀ f, v1 u f = v2 u f)
    (s0 : ℕ) (hs0 : s0 ≤ t) (um : Bool) (offset : ℕ)
    (hoff : offset % 32 = 0 ∧ (um = true ∨ offset + 32 ≤ s0))
    (st1 st2 : SState) (hqr : ∀ f, st1.qr f = st2.qr f)
    (hoa : ∀ fv, st1.oa fv = st2.oa fv) :
    (∀ f,
      (pdStep ⟨T, K, V, q, k1, v1, b1⟩
        (ctKnew ⟨T, K, V, q, k1, v1, b1⟩ 32 (prepT ⟨T, K, V, q, k1, v1, b1⟩ 32))
        32 um s0 st1 offset).qr f =
      (pdStep ⟨T, K, V, q, k2, v2, b2⟩
        (ctKnew ⟨T, K, V, q, k2, v2, b2⟩ 32 (prepT ⟨T, K, V, q, k2, v2, b2⟩ 32))
        32 um s0 st2 offset).qr f) ∧
    (∀ fv,
      (pdStep ⟨T, K, V, q, k1, v1, b1⟩
        (ctKnew ⟨T, K, V, q, k1, v1, b1⟩ 32 (prepT ⟨T, K, V, q, k1, v1, b1⟩ 32))
        32 um s0 st1 offset).oa fv =
      (pdStep ⟨T, K, V, q, k2, v2, b2⟩
        (ctKnew ⟨T, K, V, q, k2, v2, b2⟩ 32 (prepT ⟨T, K, V, q, k2, v2, b2⟩ 32))
        32 um s0 st2 offset).oa fv) := by
  by_cases hmask : (um = true) ∧ offset + 32 > s0
  · constructor
    · intro f
      rw [pdStep_qr, pdStep_qr, hqr f,
        Finset.sum_eq_zero (fun jj _ => by rw [if_pos hmask, zero_mul]),
        Finset.sum_eq_zero (fun jj _ => by rw [if_pos hmask, zero_mul])]
    · intro fv
      rw [pdStep_oa, pdStep_oa, hoa fv,
        Finset.sum_eq_zero (fun jj _ => by rw [if_pos hmask, zero_mul]),
        Finset.sum_eq_zero (fun jj _ => by rw [if_pos hmask, zero_mul])]
  · have hle : offset + 32 ≤ s0 := by
      by_cases humt : um = true
      · have hngt : ¬ (offset + 32 > s0) := fun h => hmask ⟨humt, h⟩
        omega
      · rcases hoff.2 with h1 | h2
        · exact absurd h1 humt
        · exact h2
    have hscore : ∀ jj, jj < 32 →
        pdScore ⟨T, K, V, q, k1, v1, b1⟩
          (ctKnew ⟨T, K, V, q, k1, v1, b1⟩ 32 (prepT ⟨T, K, V, q, k1, v1, b1⟩ 32))
          st1.qr offset jj =
        pdScore ⟨T, K, V, q, k2, v2, b2⟩
          (ctKnew ⟨T, K, V, q, k2, v2, b2⟩ 32 (prepT ⟨T, K, V, q, k2, v2, b2⟩ 32))
          st2.qr offset jj := by
      intro jj hjj
      unfold pdScore
      apply dotR_congr _ _ _ _ _ hqr
      intro f
      apply ld2_congr
      apply ctKnew_congr hk hb (offset + jj) f
      have ho0 : offset % 32 = 0 := hoff.1
      have hdm : 32 * (offset / 32) + offset % 32 = offset := Nat.div_add_mod offset 32
      have h2 : offset + jj = (offset / 32) * 32 + jj := by omega
      rw [h2, chunk_div 32 (offset / 32) jj hjj]
      omega
    constructor
    · intro f
      rw [pdStep_qr, pdStep_qr, hqr f]
      congr 1
      apply Finset.sum_congr rfl
      intro jj hjj
      have hjj32 : jj < 32 := Finset.mem_range.mp hjj
      rw [if_neg hmask, if_neg hmask, hscore jj hjj32,
        ld2_congr _ _ _ _ _ _ (hk _ (by omega) f), ld_congr _ _ _ _ (hb _ (by omega))]
    · intro fv
      rw [pdStep_oa, pdStep_oa, hoa fv]
      congr 1
      apply Finset.sum_congr rfl
      intro jj hjj
      have hjj32 : jj < 32 := Finset.mem_range.mp hjj
      rw [if_neg hmask, if_neg hmask, hscore jj hjj32,
        ld2_congr _ _ _ _ _ _ (hv _ (by omega) fv)]

theorem foldl_pdStep_congr (hk : ∀ u, u ≤ t → ∀ f, k1 u f = k2 u f)
    (hb : ∀ u, u ≤ t → b1 u = b2 u) (hv : ∀ u, u ≤ t → ∀ f, v1 u f = v2 u f)
    (s0 : ℕ) (hs0 : s0 ≤ t) (um : Bool) :
    ∀ l : List ℕ, (∀ o ∈ l, o % 32 = 0 ∧ (um = true ∨ o + 32 ≤ s0)) →
    ∀ st1 st2 : SState, (∀ f, st1.qr f = st2.qr f) → (∀ fv, st1.oa fv = st2.oa fv) →
      (∀ f,
        (l.foldl (pdStep ⟨T, K, V, q, k1, v1, b1⟩
          (ctKnew ⟨T, K, V, q, k1, v1, b1⟩ 32 (prepT ⟨T, K, V, q, k1, v1, b1⟩ 32))
          32 um s0) st1).qr f =
        (l.foldl (pdStep ⟨T, K, V, q, k2, v2, b2⟩
          (ctKnew ⟨T, K, V, q, k2, v2, b2⟩ 32 (prepT ⟨T, K, V, q, k2, v2, b2⟩ 32))
          32 um s0) st2).qr f) ∧
      (∀ fv,
        (l.foldl (pdStep ⟨T, K, V, q, k1, v1, b1⟩
          (ctKnew ⟨T, K, V, q, k1, v1, b1⟩ 32 (prepT ⟨T, K, V, q, k1, v1, b1⟩ 32))
          32 um s0) st1).oa fv =
        (l.foldl (pdStep ⟨T, K, V, q, k2, v2, b2⟩
          (ctKnew ⟨T, K, V, q, k2, v2, b2⟩ 32 (prepT ⟨T, K, V, q, k2, v2, b2⟩ 32))
          32 um s0) st2).oa fv) := by
  intro l
  induction l with
  | nil => intro _ st1 st2 hqr hoa; exact ⟨hqr, hoa⟩
  | cons o tl ih =>
    intro hl st1 st2 hqr hoa
    have hstep := @pdStep_congr T K V q k1 v1 k2 v2 b1 b2 t hk hb hv s0 hs0 um o
      (hl o (List.mem_cons_self o tl)) st1 st2 hqr hoa
    exact ih (fun x hx => hl x (List.mem_cons_of_mem o hx)) _ _ hstep.1 hstep.2

end Causality

theorem pdOffsL_mod (iT o : ℕ) (ho : o ∈ pdOffsL 128 32 iT) : o % 32 = 0 := by
  rw [pdOffsL_eq] at ho
  obtain ⟨n, hn, rfl⟩ := List.mem_map.mp ho
  have := List.mem_range.mp hn
  omega

theorem pdOffsR_mod (iT o : ℕ) (ho : o ∈ pdOffsR 128 32 iT) : o % 32 = 0 := by
  rw [pdOffsR_eq] at ho
  obtain ⟨n, hn, rfl⟩ := List.mem_map.mp ho
  have := List.mem_range.mp hn
  omega

/-- C2: causality of the parallel delta-rule forward engine.  If two inputs
share shapes and queries, and their keys, values and gates agree at every
time `≤ t`, the engine outputs agree at every time position `≤ t`: perturbing
key/value/gate strictly in the future never changes earlier outputs. -/
theorem claim2_causality (T K V : ℕ) (q k1 v1 k2 v2 : ℕ → ℕ → ℚ) (b1 b2 : ℕ → ℚ)
    (scale : ℚ) (t : ℕ)
    (hk : ∀ u, u ≤ t → ∀ f, k1 u f = k2 u f)
    (hv : ∀ u, u ≤ t → ∀ f, v1 u f = v2 u f)
    (hb : ∀ u, u ≤ t → b1 u = b2 u) :
    ∀ s0, s0 ≤ t → ∀ fv,
      fwdO ⟨T, K, V, q, k1, v1, b1⟩ scale s0 fv =
        fwdO ⟨T, K, V, q, k2, v2, b2⟩ scale s0 fv := by
  intro s0 hs0 fv
  unfold fwdO engineO pdOnew pdScan
  have hinitq : ∀ f,
      (pdInit ⟨T, K, V, q, k1, v1, b1⟩
        (ctQnew ⟨T, K, V, q, k1, v1, b1⟩ scale 32 (prepT ⟨T, K, V, q, k1, v1, b1⟩ 32))
        (ctO ⟨T, K, V, q, k1, v1, b1⟩ scale 32 (prepT ⟨T, K, V, q, k1, v1, b1⟩ 32)) s0).qr f =
      (pdInit ⟨T, K, V, q, k2, v2, b2⟩
        (ctQnew ⟨T, K, V, q, k2, v2, b2⟩ scale 32 (prepT ⟨T, K, V, q, k2, v2, b2⟩ 32))
        (ctO ⟨T, K, V, q, k2, v2, b2⟩ scale 32 (prepT ⟨T, K, V, q, k2, v2, b2⟩ 32)) s0).qr f :=
    fun f => ld2_congr _ _ _ _ _ _ (ctQnew_congr hk hb scale s0 f hs0)
  have hinito : ∀ fv2,
      (pdInit ⟨T, K, V, q, k1, v1, b1⟩
        (ctQnew ⟨T, K, V, q, k1, v1, b1⟩ scale 32 (prepT ⟨T, K, V, q, k1, v1, b1⟩ 32))
        (ctO ⟨T, K, V, q, k1, v1, b1⟩ scale 32 (prepT ⟨T, K, V, q, k1, v1, b1⟩ 32)) s0).oa fv2 =
      (pdInit ⟨T, K, V, q, k2, v2, b2⟩
        (ctQnew ⟨T, K, V, q, k2, v2, b2⟩ scale 32 (prepT ⟨T, K, V, q, k2, v2, b2⟩ 32))
        (ctO ⟨T, K, V, q, k2, v2, b2⟩ scale 32 (prepT ⟨T, K, V, q, k2, v2, b2⟩ 32)) s0).oa fv2 :=
    fun fv2 => ld2_congr _ _ _ _ _ _ (ctO_congr hk hb hv scale s0 fv2 hs0)
  have hL := @foldl_pdStep_congr T K V q k1 v1 k2 v2 b1 b2 t hk hb hv s0 hs0 true
    (pdOffsL 128 32 (s0 / 128))
    (fun o ho => ⟨pdOffsL_mod _ o ho, Or.inl rfl⟩) _ _ hinitq hinito
  have hR := @foldl_pdStep_congr T K V q k1 v1 k2 v2 b1 b2 t hk hb hv s0 hs0 false
    (pdOffsR 128 32 (s0 / 128))
    (fun o ho => ⟨pdOffsR_mod _ o ho,
      Or.inr (le_trans (pdOffsR_le _ o ho) (Nat.div_mul_le_self s0 128))⟩)
    _ _ hL.1 hL.2
  exact hR.2 fv

theorem claim2_causality_witness :
    (∀ u, u ≤ 0 → ∀ f, inpC2a.k u f = inpC2b.k u f) ∧
    (∀ u, u ≤ 0 → ∀ f, inpC2a.v u f = inpC2b.v u f) ∧
    (∀ u, u ≤ 0 → inpC2a.beta u = inpC2b.beta u) ∧
    fwdO inpC2a 1 0 0 = fwdO inpC2b 1 0 0 := by
  have hk : ∀ u, u ≤ 0 → ∀ f, inpC2a.k u f = inpC2b.k u f := by
    intro u hu f
    have h0 : u = 0 := Nat.le_zero.mp hu
    subst h0
    rfl
  have hv : ∀ u, u ≤ 0 → ∀ f, inpC2a.v u f = inpC2b.v u f := by
    intro u hu f
    have h0 : u = 0 := Nat.le_zero.mp hu
    subst h0
    rfl
  have hb : ∀ u, u ≤ 0 → inpC2a.beta u = inpC2b.beta u := by
    intro u hu
    have h0 : u = 0 := Nat.le_zero.mp hu
    subst h0
    rfl
  exact ⟨hk, hv, hb,
    claim2_causality 2 1 1 (fun _ _ => 0) (fun _ _ => 0) (fun _ _ => 0) futK futK
      (fun _ => 0) futB 1 0 hk hv hb 0 le_rfl 0⟩

/-! ## C1: the engine and the ReferenceOracle diverge on gated values

At `inpC1` (gate `2` everywhere, unit impulse at time 0, `K = V = 1`, scale
`1/sqrt(1) = 1`) the engine emits `1` at position `(0, 0)` while the oracle,
which gates the values by `beta` (`v = v * beta`), emits `2`. -/

theorem nextPow2_one : nextPow2 1 = 1 := by
  unfold nextPow2
  rw [Nat.clog_one_right]
  norm_num

theorem e00_row_ne (u f : ℕ) (hu : u ≠ 0) : e00 u f = 0 := by
  unfold e00
  rw [if_neg]
  rintro ⟨h0, -⟩
  exact hu h0

theorem prepL_inpC1 (c i m : ℕ) : prepL inpC1 32 c i m = 0 := by
  unfold prepL
  split
  · next hmi =>
    have hz : dotR inpC1.K (fun f => ld2 inpC1.T inpC1.K inpC1.k (c * 32 + i) f)
        (fun f => ld2 inpC1.T inpC1.K inpC1.k (c * 32 + m) f) = 0 := by
      unfold dotR
      apply Finset.sum_eq_zero
      intro f _
      have h1 : ld2 inpC1.T inpC1.K inpC1.k (c * 32 + i) f = 0 :=
        ld2_of_entry_zero _ _ _ _ _ (e00_row_ne _ f (by omega))
      show ld2 inpC1.T inpC1.K inpC1.k (c * 32 + i) f *
        ld2 inpC1.T inpC1.K inpC1.k (c * 32 + m) f = 0
      rw [h1, zero_mul]
    rw [hz, mul_zero]
  · rfl

theorem prepT_inpC1 (u j : ℕ) : prepT inpC1 32 u j = if u % 32 = j then 1 else 0 := by
  unfold prepT
  exact Tsub_of_zero _ (fun i m => prepL_inpC1 (u / 32) i m) (u % 32) j

theorem ctSqk_inpC1 (m : ℕ) : ctSqk inpC1 1 32 0 m = if m = 0 then 1 else 0 := by
  unfold ctSqk
  by_cases hm : m = 0
  · subst hm
    rw [if_pos (by norm_num), if_pos rfl]
    show dotR (nextPow2 inpC1.K) _ _ = 1
    have hK : inpC1.K = 1 := rfl
    rw [hK, nextPow2_one]
    unfold dotR
    rw [Finset.sum_range_one]
    show ctQ inpC1 1 0 0 * ld2 inpC1.T inpC1.K inpC1.k (0 / 32 * 32 + 0) 0 = 1
    norm_num [ctQ, ld2, e00, inpC1]
  · rw [if_neg (by omega), if_neg hm]

theorem ctSqkT_inpC1 (j : ℕ) (hj : j < 32) :
    ctSqkT inpC1 1 32 (prepT inpC1 32) 0 j = if j = 0 then 1 else 0 := by
  unfold ctSqkT
  rw [Finset.sum_eq_single_of_mem 0 (Finset.mem_range.mpr (by norm_num))]
  · rw [ctSqk_inpC1, if_pos rfl, one_mul]
    show ld2 inpC1.T 32 (prepT inpC1 32) (0 / 32 * 32 + 0) j = _
    have h0 : (0 : ℕ) / 32 * 32 + 0 = 0 := by norm_num
    rw [h0]
    unfold ld2
    rw [if_pos ⟨by norm_num [inpC1], hj⟩, prepT_inpC1]
    by_cases hj0 : j = 0
    · subst hj0
      norm_num
    · rw [if_neg (by omega), if_neg hj0]
  · intro m _ hm0
    rw [ctSqk_inpC1, if_neg hm0, zero_mul]

theorem ctO_inpC1 : ctO inpC1 1 32 (prepT inpC1 32) 0 0 = 1 := by
  unfold ctO
  rw [Finset.sum_eq_single_of_mem 0 (Finset.mem_range.mpr (by norm_num))]
  · rw [ctSqkT_inpC1 0 (by norm_num), if_pos rfl, one_mul]
    show ld2 inpC1.T inpC1.V inpC1.v (0 / 32 * 32 + 0) 0 = 1
    have h0 : (0 : ℕ) / 32 * 32 + 0 = 0 := by norm_num
    rw [h0]
    unfold ld2
    rw [if_pos ⟨by norm_num [inpC1], by norm_num [inpC1]⟩]
    rfl
  · intro m hm hm0
    rw [ctSqkT_inpC1 m (Finset.mem_range.mp hm), if_neg hm0, zero_mul]

theorem pdStep_masked_oa (p : Inp) (kn : ℕ → ℕ → ℚ) (BS t : ℕ) (st : SState)
    (offset fv : ℕ) (h : offset + BS > t) :
    (pdStep p kn BS true t st offset).oa fv = st.oa fv := by
  rw [pdStep_oa, Finset.sum_eq_zero, add_zero]
  intro jj _
  rw [if_pos ⟨rfl, h⟩, zero_mul]

theorem fwdO_inpC1_val : fwdO inpC1 1 0 0 = 1 := by
  unfold fwdO engineO pdOnew pdScan
  have hL : pdOffsL 128 32 (0 / 128) = [64, 32, 0] := by decide
  have hR : pdOffsR 128 32 (0 / 128) = [] := by decide
  rw [hL, hR]
  simp only [List.foldl_cons, List.foldl_nil]
  rw [pdStep_masked_oa _ _ _ _ _ _ _ (by norm_num),
    pdStep_masked_oa _ _ _ _ _ _ _ (by norm_num),
    pdStep_masked_oa _ _ _ _ _ _ _ (by norm_num)]
  show ld2 inpC1.T inpC1.V (ctO inpC1 1 32 (prepT inpC1 32)) 0 0 = 1
  unfold ld2
  rw [if_pos ⟨by norm_num [inpC1], by norm_num [inpC1]⟩]
  exact ctO_inpC1

theorem ratRsqrt_one : ratRsqrt 1 = 1 := by
  unfold ratRsqrt
  rw [Nat.sqrt_one]
  norm_num

theorem nvL_inpC1 (c i m : ℕ) : nvL inpC1 32 c i m = 0 := by
  unfold nvL
  split
  · next hmi =>
    unfold dotR
    apply Finset.sum_eq_zero
    intro f _
    show nvKb inpC1 (c * 32 + i) f * inpC1.k (c * 32 + m) f = 0
    unfold nvKb
    rw [show inpC1.k (c * 32 + i) f = 0 from e00_row_ne _ f (by omega), zero_mul, zero_mul]
  · rfl

theorem nvT_inpC1 (c i j : ℕ) : nvT inpC1 32 c i j = if i = j then 1 else 0 := by
  unfold nvT
  exact Tsub_of_zero _ (fun i2 m => nvL_inpC1 c i2 m) i j

theorem nvSqk_inpC1 (m : ℕ) : nvSqk inpC1 32 0 m = if m = 0 then 1 else 0 := by
  unfold nvSqk
  by_cases hm : m = 0
  · subst hm
    rw [if_pos (by norm_num), if_pos rfl]
    unfold dotR
    have hK : inpC1.K = 1 := rfl
    rw [hK, Finset.sum_range_one]
    show nvQ inpC1 0 0 * inpC1.k (0 / 32 * 32 + 0) 0 = 1
    norm_num [nvQ, inpC1, e00, ratRsqrt, Nat.sqrt_one]
  · rw [if_neg (by omega), if_neg hm]

theorem nvAloc_inpC1 (j : ℕ) : nvAloc inpC1 32 0 j = if j = 0 then 1 else 0 := by
  unfold nvAloc
  rw [Finset.sum_eq_single_of_mem 0 (Finset.mem_range.mpr (by norm_num))]
  · rw [nvSqk_inpC1, if_pos rfl, one_mul]
    show nvT inpC1 32 (0 / 32) 0 j = _
    rw [nvT_inpC1]
    by_cases hj0 : j = 0
    · subst hj0
      norm_num
    · rw [if_neg (fun h => hj0 h.symm), if_neg hj0]
  · intro m _ hm0
    rw [nvSqk_inpC1, if_neg hm0, zero_mul]

theorem nvOintra_inpC1 : nvOintra inpC1 32 0 0 = 2 := by
  unfold nvOintra
  rw [Finset.sum_eq_single_of_mem 0 (Finset.mem_range.mpr (by norm_num))]
  · rw [nvAloc_inpC1, if_pos rfl, one_mul]
    show nvV inpC1 (0 / 32 * 32 + 0) 0 = 2
    norm_num [nvV, inpC1, e00]
  · intro m _ hm0
    rw [nvAloc_inpC1, if_neg hm0, zero_mul]

theorem nvStep_masked_oa (p : Inp) (BN t : ℕ) (st : NState) (offset fv : ℕ)
    (h : offset + BN > t) :
    (nvStep p BN true t st offset).oa fv = st.oa fv := by
  show st.oa fv + _ = st.oa fv
  rw [Finset.sum_eq_zero, add_zero]
  intro jj _
  show (if (true = true) ∧ offset + BN > t then 0
      else dotR p.K st.qr fun f => nvKc p BN (offset + jj) f) * nvV p (offset + jj) fv = 0
  rw [if_pos ⟨rfl, h⟩, zero_mul]

theorem nvO_inpC1_val : nvO inpC1 128 32 0 0 = 2 := by
  unfold nvO
  have hL : nvOffsL 128 32 (0 / 128 * 128) = [64, 32, 0] := by decide
  have hR : nvOffsR 128 32 (0 / 128 * 128) = [] := by decide
  rw [hL, hR]
  simp only [List.foldl_cons, List.foldl_nil]
  rw [nvStep_masked_oa _ _ _ _ _ _ (by norm_num),
    nvStep_masked_oa _ _ _ _ _ _ (by norm_num),
    nvStep_masked_oa _ _ _ _ _ _ (by norm_num)]
  show nvOintra inpC1 32 0 0 = 2
  exact nvOintra_inpC1

/-- C1 fails on the code: at `inpC1` — a valid input with `T = 128`,
`K = V = 1`, gate `2` everywhere and the scale `1/sqrt(K) = 1` — the
parallel engine emits `1` at position `(0, 0)` while the ReferenceOracle
`naive_delta_rule_parallel` emits `2` on exactly the same input.  Under
exact arithmetic the two disagree because the oracle gates the values
(`v = v * beta`) and the kernels never do. -/
theorem claim1_engine_oracle_divergence :
    fwdO inpC1 1 0 0 = 1 ∧ nvO inpC1 128 32 0 0 = 2 ∧
      fwdO inpC1 1 0 0 ≠ nvO inpC1 128 32 0 0 := by
  refine ⟨fwdO_inpC1_val, nvO_inpC1_val, ?_⟩
  rw [fwdO_inpC1_val, nvO_inpC1_val]
  norm_num

end Fla
